import Mathlib

/-!
Verification of the `cc` cycle-collector crate.

The crate exposes a trait `CyclicReference` with three operations
(`get_id`, `get_references`, `break_references`) and a single entry point
`collect` that walks the object graph depth-first, deduplicating visits by
identity, and severs the internal references of each newly seen node.

We embed the trait as a record of stateful operations over an abstract world
state `σ` (Rust's `&self` methods read the state, `&mut self` may replace
both the reference value and the state), and `collect`'s `while` loop as a
fuel-indexed recursion.  The loop additionally records, as ghost data, the
list of `(id, progress)` pairs for every `break_references` invocation, so
that observational claims (which nodes were broken, and how often) can be
stated; erasing that field recovers the source verbatim.
-/

namespace CC

/-- The `RefList` alias from the source: `Option<Vec<Box<CyclicReference>>>`. -/
def RefList (Ref : Type) : Type := Option (List Ref)

/-- The `CyclicReference` trait, embedded as operations over a world state `σ`.
`get_id` and `get_references` take `&self` and so read the state without
changing it; `break_references` takes `&mut self` and may mutate both the
reference value itself and the shared world, returning `true` on progress. -/
structure CRImpl (σ Ref : Type) where
  get_id : Ref → σ → Option Nat
  get_references : Ref → σ → RefList Ref
  break_references : Ref → σ → Bool × Ref × σ

/-- Result of running `collect`'s loop to completion: the final break counter,
seen set, world state, and the ghost log of `break_references` invocations
(identity of the reference broken, paired with whether it reported progress). -/
structure LoopOut (σ : Type) where
  broken : Nat
  seen : Finset Nat
  state : σ
  calls : List (Nat × Bool)

/-- The `while !to_visit.is_empty()` loop of `collect`.  The stack's head is
the top (Rust pushes and pops at the `Vec`'s end, so `extend(refs)` becomes
`refs.reverse ++ rest`).  A popped reference is skipped when its id is absent
or already seen; otherwise the id is inserted, `break_references` runs (the
counter increments exactly on reported progress) and only then are the
children of the (possibly mutated) reference queried and pushed.  `fuel`
bounds the number of iterations; `none` means fuel ran out. -/
def collectLoop (impl : CRImpl σ Ref) :
    Nat → Finset Nat → List Ref → Nat → σ → List (Nat × Bool) → Option (LoopOut σ)
  | _, seen, [], broken, s, calls => some ⟨broken, seen, s, calls⟩
  | 0, _, _ :: _, _, _, _ => none
  | fuel + 1, seen, r :: rest, broken, s, calls =>
    match impl.get_id r s with
    | none => collectLoop impl fuel seen rest broken s calls
    | some i =>
      if i ∈ seen then
        collectLoop impl fuel seen rest broken s calls
      else
        let t := impl.break_references r s
        let broken2 := if t.1 then broken + 1 else broken
        let calls2 := calls ++ [(i, t.1)]
        match impl.get_references t.2.1 t.2.2 with
        | none => collectLoop impl fuel (insert i seen) rest broken2 t.2.2 calls2
        | some refs =>
          collectLoop impl fuel (insert i seen) (refs.reverse ++ rest) broken2 t.2.2 calls2

/-- The `collect` entry point.  Returns `none` only on fuel exhaustion inside
the loop (an artefact of the embedding); otherwise `some (res, s, calls)`
where `res` is the Rust return value (`None` when the root's id or reference
list was absent, `Some broken` otherwise), `s` the final world state and
`calls` the ghost break log. -/
def collect (impl : CRImpl σ Ref) (fuel : Nat) (root : Ref) (s : σ) :
    Option (Option Nat × σ × List (Nat × Bool)) :=
  match impl.get_id root s with
  | none => some (none, s, [])
  | some i =>
    match impl.get_references root s with
    | none => some (none, s, [])
    | some refs =>
      match collectLoop impl fuel {i} refs.reverse 0 s [] with
      | none => none
      | some out => some (some out.broken, out.state, out.calls)

/-! ### A concrete graph model

Instantiation of the contract for a static object graph on `n` nodes, in the
manner of the crate's adapters for `Rc<RefCell<R>>` over a list-like payload:
every node always has an identity (its index); the world state records, per
node, either its current list of children or `none` once the node has been
broken (its payload replaced by the terminal variant); a broken node reports
an empty child list; `break_references` succeeds exactly when exclusive
access is available (`brk`) and the node still holds references, and it then
empties that node's own entry. -/

/-- World state for the graph model: each node is either live with a list of
children, or broken (`none`). -/
def GState (n : Nat) : Type := Fin n → Option (List (Fin n))

/-- The graph-model implementation of the capability contract. -/
def graphImpl (n : Nat) (brk : Fin n → Bool) : CRImpl (GState n) (Fin n) where
  get_id r _ := some r.val
  get_references r s := some ((s r).getD [])
  break_references r s :=
    match s r with
    | none => (false, r, s)
    | some _ =>
      if brk r then (true, r, fun j => if j = r then none else s j) else (false, r, s)

/-- The all-live initial state of a static graph `g`. -/
def liveState (g : Fin n → List (Fin n)) : GState n := fun i => some (g i)

/-- Whether the identity `i` names a node whose break makes progress. -/
def brkId (n : Nat) (brk : Fin n → Bool) (i : Nat) : Bool :=
  if h : i < n then brk ⟨i, h⟩ else false

/-- State invariant threaded through the loop in the graph model: every node
is still live with its original children, unless its identity is seen. -/
def stateOk (g : Fin n → List (Fin n)) (seen : Finset Nat) (s : GState n) : Prop :=
  ∀ r, s r = some (g r) ∨ r.val ∈ seen

/-- Nodes the loop can reach from the current stack: stack members, plus
children of reached nodes that are unseen and unbreakable (only those get
expanded, since a successfully broken node reports no children). -/
inductive Reach (g : Fin n → List (Fin n)) (brk : Fin n → Bool) (seen : Finset Nat)
    (stack : List (Fin n)) : Fin n → Prop
  | base (x : Fin n) : x ∈ stack → Reach g brk seen stack x
  | step (y x : Fin n) : Reach g brk seen stack y → y.val ∉ seen → brk y = false →
      x ∈ g y → Reach g brk seen stack x

/-- Chain `root → A → B` with `B` childless (spec §8, linear chain test). -/
def g5 : Fin 3 → List (Fin 3) := fun i => if i.val = 0 then [1] else if i.val = 1 then [2] else []

/-- Root with two children that are the same node `C` (spec §8, sharing test). -/
def g6 : Fin 2 → List (Fin 2) := fun i => if i.val = 0 then [1, 1] else []

/-- Three-node graph whose root lists its children as `[1, 2]`. -/
def g9a : Fin 3 → List (Fin 3) := fun i => if i.val = 0 then [1, 2] else []

/-- The same graph with the root's children enumerated in the other order. -/
def g9b : Fin 3 → List (Fin 3) := fun i => if i.val = 0 then [2, 1] else []

/-! ### The `Rc<RefCell<R>>` adapter

The shared-ownership cell adapter: identity is the address of the shared
allocation (`&*self as *const _ as uint`) and never consults the borrow flag;
`get_references` goes through `try_borrow` (fails only against a writer) and
`break_references` through `try_borrow_mut` (fails against any outstanding
borrow), each delegating to the wrapped value on success. -/

/-- Runtime borrow flag of a `RefCell`. -/
inductive BorrowFlag where
  | free : BorrowFlag
  | reading : Nat → BorrowFlag
  | writing : BorrowFlag

/-- A clone of an `Rc<RefCell<R>>`: a handle carrying the shared allocation's
address.  Clones of one allocation carry the same address. -/
structure RcHandle where
  addr : Nat

/-- Whether `try_borrow` succeeds: any state but an active writer. -/
def tryBorrow (f : BorrowFlag) : Bool :=
  match f with
  | BorrowFlag.writing => false
  | _ => true

/-- Whether `try_borrow_mut` succeeds: only when no borrow is outstanding. -/
def tryBorrowMut (f : BorrowFlag) : Bool :=
  match f with
  | BorrowFlag.free => true
  | _ => false

/-- The adapter's `get_id`: the allocation address, unconditionally present. -/
def rcGetId (rc : RcHandle) : Option Nat := some rc.addr

/-- The adapter's `get_references`: `try_borrow` then delegate to the wrapped
value's reference list (itself possibly absent). -/
def rcGetReferences (inner : Nat → RefList RcHandle) (flags : Nat → BorrowFlag)
    (rc : RcHandle) : RefList RcHandle :=
  if tryBorrow (flags rc.addr) then inner rc.addr else none

/-- The adapter's `break_references`: `try_borrow_mut` then delegate, reporting
no progress when the cell is contended. -/
def rcBreakReferences (inner : Nat → Bool) (flags : Nat → BorrowFlag)
    (rc : RcHandle) : Bool :=
  if tryBorrowMut (flags rc.addr) then inner rc.addr else false

/-! ### Small fixed implementations used to instantiate general theorems -/

/-- Implementation whose sole reference has no identity and no reference list. -/
def unitAbsent : CRImpl Unit Unit where
  get_id _ _ := none
  get_references _ _ := none
  break_references _ s := (false, (), s)

/-- Implementation whose sole reference has identity `0` and no children. -/
def unitPresent : CRImpl Unit Unit where
  get_id _ _ := some 0
  get_references _ _ := some []
  break_references _ s := (false, (), s)

/-! ### Unfolding equations for the loop -/

theorem collectLoop_nil (impl : CRImpl σ Ref) (fuel : Nat) (seen : Finset Nat)
    (broken : Nat) (s : σ) (calls : List (Nat × Bool)) :
    collectLoop impl fuel seen [] broken s calls = some ⟨broken, seen, s, calls⟩ := by
  cases fuel <;> rfl

theorem collectLoop_cons_absent (impl : CRImpl σ Ref) {r : Ref} {s : σ}
    (fuel : Nat) (seen : Finset Nat) (rest : List Ref) (broken : Nat)
    (calls : List (Nat × Bool)) (hid : impl.get_id r s = none) :
    collectLoop impl (fuel + 1) seen (r :: rest) broken s calls
      = collectLoop impl fuel seen rest broken s calls := by
  simp [collectLoop, hid]

theorem collectLoop_cons_seen (impl : CRImpl σ Ref) {r : Ref} {s : σ} {i : Nat}
    (fuel : Nat) {seen : Finset Nat} (rest : List Ref) (broken : Nat)
    (calls : List (Nat × Bool)) (hid : impl.get_id r s = some i) (hi : i ∈ seen) :
    collectLoop impl (fuel + 1) seen (r :: rest) broken s calls
      = collectLoop impl fuel seen rest broken s calls := by
  simp [collectLoop, hid, hi]

theorem collectLoop_cons_new_absent (impl : CRImpl σ Ref) {r : Ref} {s : σ} {i : Nat}
    (fuel : Nat) {seen : Finset Nat} (rest : List Ref) (broken : Nat)
    (calls : List (Nat × Bool)) (hid : impl.get_id r s = some i) (hi : i ∉ seen)
    (hrefs : impl.get_references (impl.break_references r s).2.1
      (impl.break_references r s).2.2 = none) :
    collectLoop impl (fuel + 1) seen (r :: rest) broken s calls
      = collectLoop impl fuel (insert i seen) rest
          (if (impl.break_references r s).1 then broken + 1 else broken)
          (impl.break_references r s).2.2
          (calls ++ [(i, (impl.break_references r s).1)]) := by
  simp [collectLoop, hid, hi, hrefs]

theorem collectLoop_cons_new_present (impl : CRImpl σ Ref) {r : Ref} {s : σ} {i : Nat}
    {refs : List Ref} (fuel : Nat) {seen : Finset Nat} (rest : List Ref) (broken : Nat)
    (calls : List (Nat × Bool)) (hid : impl.get_id r s = some i) (hi : i ∉ seen)
    (hrefs : impl.get_references (impl.break_references r s).2.1
      (impl.break_references r s).2.2 = some refs) :
    collectLoop impl (fuel + 1) seen (r :: rest) broken s calls
      = collectLoop impl fuel (insert i seen) (refs.reverse ++ rest)
          (if (impl.break_references r s).1 then broken + 1 else broken)
          (impl.break_references r s).2.2
          (calls ++ [(i, (impl.break_references r s).1)]) := by
  simp [collectLoop, hid, hi, hrefs]

/-! ### The central loop invariant

One induction giving everything the observational claims need: the seen set
only grows, the ghost break log extends by a block of identities that were
each unseen on entry (hence pairwise distinct) and are seen on exit, and the
break counter advances by exactly the number of logged progress reports. -/

theorem collectLoop_invariant (impl : CRImpl σ Ref) :
    ∀ fuel (seen : Finset Nat) (stack : List Ref) (broken : Nat) (s : σ)
      (calls : List (Nat × Bool)) (out : LoopOut σ),
      collectLoop impl fuel seen stack broken s calls = some out →
      seen ⊆ out.seen ∧ ∃ δ, out.calls = calls ++ δ ∧ (δ.map Prod.fst).Nodup ∧
        (∀ c ∈ δ, c.1 ∉ seen ∧ c.1 ∈ out.seen) ∧
        out.broken = broken + (δ.filter (fun c => c.2)).length := by
  intro fuel
  induction fuel with
  | zero =>
    intro seen stack broken s calls out h
    cases stack with
    | nil =>
      rw [collectLoop_nil, Option.some_inj] at h
      subst h
      exact ⟨Finset.Subset.refl _, [], by simp, by simp, by simp, by simp⟩
    | cons r rest => exact absurd h (by simp [collectLoop])
  | succ fuel ih =>
    intro seen stack broken s calls out h
    cases stack with
    | nil =>
      rw [collectLoop_nil, Option.some_inj] at h
      subst h
      exact ⟨Finset.Subset.refl _, [], by simp, by simp, by simp, by simp⟩
    | cons r rest =>
      rcases hid : impl.get_id r s with _ | i
      · rw [collectLoop_cons_absent impl fuel seen rest broken calls hid] at h
        exact ih seen rest broken s calls out h
      · by_cases hi : i ∈ seen
        · rw [collectLoop_cons_seen impl fuel rest broken calls hid hi] at h
          exact ih seen rest broken s calls out h
        · have key : ∀ stack2 broken2 s2,
              collectLoop impl fuel (insert i seen) stack2
                (if (impl.break_references r s).1 then broken + 1 else broken) s2
                (calls ++ [(i, (impl.break_references r s).1)]) = some out →
              broken2 = broken →
              seen ⊆ out.seen ∧ ∃ δ, out.calls = calls ++ δ ∧ (δ.map Prod.fst).Nodup ∧
                (∀ c ∈ δ, c.1 ∉ seen ∧ c.1 ∈ out.seen) ∧
                out.broken = broken + (δ.filter (fun c => c.2)).length := by
            intro stack2 broken2 s2 h2 _
            obtain ⟨hsub, δ, hcalls, hnd, hmem, hbk⟩ :=
              ih (insert i seen) stack2 _ s2 (calls ++ [(i, (impl.break_references r s).1)]) out h2
            refine ⟨(Finset.subset_insert i seen).trans hsub,
              (i, (impl.break_references r s).1) :: δ, ?_, ?_, ?_, ?_⟩
            · rw [hcalls]; simp
            · simp only [List.map_cons, List.nodup_cons]
              refine ⟨?_, hnd⟩
              intro hmm
              obtain ⟨c, hc, hc1⟩ := List.mem_map.mp hmm
              exact (hmem c hc).1 (hc1 ▸ Finset.mem_insert_self i seen)
            · intro c hc
              rcases List.mem_cons.mp hc with hcr | hcδ
              · subst hcr
                exact ⟨hi, hsub (Finset.mem_insert_self i seen)⟩
              · exact ⟨fun hs => (hmem c hcδ).1 (Finset.mem_insert_of_mem hs),
                  (hmem c hcδ).2⟩
            · rcases hb : (impl.break_references r s).1 with _ | _
              · rw [hb] at hbk
                simp [List.filter_cons, hb, hbk]
              · rw [hb] at hbk
                simp [List.filter_cons, hb, hbk]
                omega
          rcases hrefs : impl.get_references (impl.break_references r s).2.1
              (impl.break_references r s).2.2 with _ | refs
          · rw [collectLoop_cons_new_absent impl fuel rest broken calls hid hi hrefs] at h
            exact key rest broken _ h rfl
          · rw [collectLoop_cons_new_present impl fuel rest broken calls hid hi hrefs] at h
            exact key (refs.reverse ++ rest) broken _ h rfl

/-! ### Claim C1 -/

/-- C1: for every popped reference in the main loop of `collect`: an
absent identity skips it entirely (no seen-marking, no break, no expansion);
an already-seen identity discards it with no break and no expansion; a newly
inserted identity triggers `break_references` (the counter increments exactly
on reported progress) and only then a children query, with absent children
causing no expansion and present children being pushed onto the stack. -/
theorem collect_loop_step_cases (impl : CRImpl σ Ref) (fuel : Nat) (seen : Finset Nat)
    (r : Ref) (rest : List Ref) (broken : Nat) (s : σ) (calls : List (Nat × Bool)) :
    (impl.get_id r s = none →
      collectLoop impl (fuel + 1) seen (r :: rest) broken s calls
        = collectLoop impl fuel seen rest broken s calls)
  ∧ (∀ i, impl.get_id r s = some i → i ∈ seen →
      collectLoop impl (fuel + 1) seen (r :: rest) broken s calls
        = collectLoop impl fuel seen rest broken s calls)
  ∧ (∀ i b r2 s2, impl.get_id r s = some i → i ∉ seen →
      impl.break_references r s = (b, r2, s2) →
      (impl.get_references r2 s2 = none →
        collectLoop impl (fuel + 1) seen (r :: rest) broken s calls
          = collectLoop impl fuel (insert i seen) rest
              (if b then broken + 1 else broken) s2 (calls ++ [(i, b)]))
      ∧ ∀ refs, impl.get_references r2 s2 = some refs →
        collectLoop impl (fuel + 1) seen (r :: rest) broken s calls
          = collectLoop impl fuel (insert i seen) (refs.reverse ++ rest)
              (if b then broken + 1 else broken) s2 (calls ++ [(i, b)])) := by
  refine ⟨?_, ?_, ?_⟩
  · intro hid
    exact collectLoop_cons_absent impl fuel seen rest broken calls hid
  · intro i hid hi
    exact collectLoop_cons_seen impl fuel rest broken calls hid hi
  · intro i b r2 s2 hid hi hbk
    constructor
    · intro hrefs
      have h := collectLoop_cons_new_absent impl fuel rest broken calls hid hi
        (by rw [hbk]; exact hrefs)
      rw [hbk] at h
      exact h
    · intro refs hrefs
      have h := collectLoop_cons_new_present impl fuel rest broken calls hid hi
        (by rw [hbk]; exact hrefs)
      rw [hbk] at h
      exact h

/-- Witness for C1: each of the three branches checked on a concrete step
(identityless reference, already-seen node, newly inserted node). -/
theorem collect_loop_step_cases_witness :
    (collectLoop unitAbsent 1 ∅ [()] 0 () [] = collectLoop unitAbsent 0 ∅ [] 0 () [])
  ∧ (collectLoop (graphImpl 1 (fun _ => true)) 1 {0} [0] 0 (liveState fun _ => []) []
      = collectLoop (graphImpl 1 (fun _ => true)) 0 {0} [] 0 (liveState fun _ => []) [])
  ∧ (collectLoop (graphImpl 1 (fun _ => true)) 1 ∅ [0] 0 (liveState fun _ => []) []
      = collectLoop (graphImpl 1 (fun _ => true)) 0 {0} [] 1
          (fun j => if j = 0 then none else liveState (fun _ => []) j) [(0, true)]) := by
  refine ⟨?_, ?_, ?_⟩
  · exact (collect_loop_step_cases unitAbsent 0 ∅ () [] 0 () []).1 rfl
  · exact (collect_loop_step_cases (graphImpl 1 (fun _ => true)) 0 {0} 0 [] 0
      (liveState fun _ => []) []).2.1 0 rfl (by decide)
  · exact ((collect_loop_step_cases (graphImpl 1 (fun _ => true)) 0 ∅ 0 [] 0
      (liveState fun _ => []) []).2.2 0 true 0
      (fun j => if j = 0 then none else liveState (fun _ => []) j)
      rfl (by decide) rfl).2 [] rfl

/-! ### Claims C2 and C3 -/

/-- C2: `collect` returns the absent result exactly when the root's identity
or the root's reference list is absent; in every other case it returns a
present count. -/
theorem collect_absent_iff (impl : CRImpl σ Ref) (fuel : Nat) (root : Ref) (s : σ)
    (res : Option Nat × σ × List (Nat × Bool)) (h : collect impl fuel root s = some res) :
    res.1 = none ↔ impl.get_id root s = none ∨ impl.get_references root s = none := by
  rcases hid : impl.get_id root s with _ | i
  · simp only [collect, hid] at h
    rw [Option.some_inj] at h
    subst h
    simp
  · rcases hrefs : impl.get_references root s with _ | refs
    · simp only [collect, hid, hrefs] at h
      rw [Option.some_inj] at h
      subst h
      simp
    · rcases hloop : collectLoop impl fuel {i} refs.reverse 0 s [] with _ | out
      · simp only [collect, hid, hrefs, hloop] at h
        exact Option.noConfusion h
      · simp only [collect, hid, hrefs, hloop] at h
        rw [Option.some_inj] at h
        subst h
        simp

/-- Witness for C2: a root with no identity yields the absent result, and the
equivalence holds there. -/
theorem collect_absent_iff_witness :
    (none : Option Nat) = none ↔
      unitAbsent.get_id () () = none ∨ unitAbsent.get_references () () = none :=
  collect_absent_iff unitAbsent 0 () () (none, (), []) rfl

/-- C3: whenever `collect` returns the absent result, the world state is
unchanged and no `break_references` invocation was logged anywhere. -/
theorem collect_absent_no_mutation (impl : CRImpl σ Ref) (fuel : Nat) (root : Ref)
    (s : σ) (res : Option Nat × σ × List (Nat × Bool))
    (h : collect impl fuel root s = some res) (habs : res.1 = none) :
    res.2.1 = s ∧ res.2.2 = [] := by
  rcases hid : impl.get_id root s with _ | i
  · simp only [collect, hid] at h
    rw [Option.some_inj] at h
    subst h
    exact ⟨rfl, rfl⟩
  · rcases hrefs : impl.get_references root s with _ | refs
    · simp only [collect, hid, hrefs] at h
      rw [Option.some_inj] at h
      subst h
      exact ⟨rfl, rfl⟩
    · rcases hloop : collectLoop impl fuel {i} refs.reverse 0 s [] with _ | out
      · simp only [collect, hid, hrefs, hloop] at h
        exact Option.noConfusion h
      · simp only [collect, hid, hrefs, hloop] at h
        rw [Option.some_inj] at h
        subst h
        exact absurd habs (by simp)

/-- Witness for C3: on the identityless root, the returned state equals the
input state and the break log is empty. -/
theorem collect_absent_no_mutation_witness :
    ((none, (), []) : Option Nat × Unit × List (Nat × Bool)).2.1 = ()
  ∧ ((none, (), []) : Option Nat × Unit × List (Nat × Bool)).2.2 = [] :=
  collect_absent_no_mutation unitAbsent 0 () () (none, (), []) rfl rfl

/-! ### Claim C4: termination -/

/-- Fuel bound for the loop: the stack length plus `B` for every identity not
yet seen suffices, because each iteration either shrinks the stack or newly
inserts an identity and pushes at most `B` children. -/
theorem collectLoop_enough_fuel (impl : CRImpl σ Ref) (I : Finset Nat) (B : Nat)
    (hI : ∀ r s i, impl.get_id r s = some i → i ∈ I)
    (hB : ∀ r s l, impl.get_references r s = some l → l.length ≤ B) :
    ∀ fuel (seen : Finset Nat) (stack : List Ref) (broken : Nat) (s : σ)
      (calls : List (Nat × Bool)),
      stack.length + (I \ seen).card * B ≤ fuel →
      (collectLoop impl fuel seen stack broken s calls).isSome = true := by
  intro fuel
  induction fuel with
  | zero =>
    intro seen stack broken s calls hle
    cases stack with
    | nil => rw [collectLoop_nil]; rfl
    | cons r rest => simp at hle
  | succ fuel ih =>
    intro seen stack broken s calls hle
    cases stack with
    | nil => rw [collectLoop_nil]; rfl
    | cons r rest =>
      simp only [List.length_cons] at hle
      rcases hid : impl.get_id r s with _ | i
      · rw [collectLoop_cons_absent impl fuel seen rest broken calls hid]
        apply ih
        omega
      · by_cases hi : i ∈ seen
        · rw [collectLoop_cons_seen impl fuel rest broken calls hid hi]
          apply ih
          omega
        · have hmem : i ∈ I \ seen := Finset.mem_sdiff.mpr ⟨hI r s i hid, hi⟩
          have hins : I \ insert i seen = (I \ seen).erase i := by
            ext j
            simp only [Finset.mem_sdiff, Finset.mem_insert, Finset.mem_erase]
            tauto
          have hcard : (I \ insert i seen).card + 1 = (I \ seen).card := by
            rw [hins, Finset.card_erase_of_mem hmem]
            have hpos : 0 < (I \ seen).card := Finset.card_pos.mpr ⟨i, hmem⟩
            omega
          rw [← hcard, Nat.succ_mul] at hle
          rcases hrefs : impl.get_references (impl.break_references r s).2.1
              (impl.break_references r s).2.2 with _ | refs
          · rw [collectLoop_cons_new_absent impl fuel rest broken calls hid hi hrefs]
            apply ih
            omega
          · rw [collectLoop_cons_new_present impl fuel rest broken calls hid hi hrefs]
            apply ih
            have hrB : refs.length ≤ B := hB _ _ refs hrefs
            simp only [List.length_append, List.length_reverse]
            omega

/-- C4: `collect` terminates on every graph, cyclic ones included, whenever
the reachable identities are finitely many (all ids fall in a finite set `I`)
and child lists are bounded (`B`): any fuel of at least `B + I.card * B`
completes the pass, because the stack only grows from newly inserted
identities and the seen set is bounded by `I`. -/
theorem collect_terminates (impl : CRImpl σ Ref) (I : Finset Nat) (B : Nat)
    (hI : ∀ r s i, impl.get_id r s = some i → i ∈ I)
    (hB : ∀ r s l, impl.get_references r s = some l → l.length ≤ B)
    (root : Ref) (s : σ) (fuel : Nat) (hfuel : B + I.card * B ≤ fuel) :
    (collect impl fuel root s).isSome = true := by
  rcases hid : impl.get_id root s with _ | i
  · simp [collect, hid]
  · rcases hrefs : impl.get_references root s with _ | refs
    · simp [collect, hid, hrefs]
    · have hloop := collectLoop_enough_fuel impl I B hI hB fuel {i} refs.reverse 0 s []
        (by
          have hrB : refs.length ≤ B := hB root s refs hrefs
          have hcard : (I \ {i}).card ≤ I.card := Finset.card_le_card Finset.sdiff_subset
          have : (I \ {i}).card * B ≤ I.card * B := Nat.mul_le_mul hcard (le_refl B)
          simp only [List.length_reverse]
          omega)
      rcases hsome : collectLoop impl fuel {i} refs.reverse 0 s [] with _ | out
      · rw [hsome] at hloop
        exact absurd hloop (by simp)
      · simp [collect, hid, hrefs, hsome]

/-- Witness for C4: a one-node implementation with identities confined to
`{0}` and childless nodes terminates already at fuel `0`. -/
theorem collect_terminates_witness : (collect unitPresent 0 () ()).isSome = true := by
  refine collect_terminates unitPresent {0} 0 ?_ ?_ () () 0 (by simp)
  · intro r s i h
    simp only [unitPresent, Option.some_inj] at h
    subst h
    simp
  · intro r s l h
    injection h with h
    subst h
    simp

/-! ### Claim C7 -/

/-- C7: throughout one invocation's loop the seen set only grows, and the
break log extends by identities that are pairwise distinct (so
`break_references` runs at most once per identity), each unseen at the start
of the run and seen at its end (each runs exactly when newly inserted). -/
theorem collect_seen_grows_break_once (impl : CRImpl σ Ref) (fuel : Nat)
    (seen : Finset Nat) (stack : List Ref) (broken : Nat) (s : σ)
    (calls : List (Nat × Bool)) (out : LoopOut σ)
    (h : collectLoop impl fuel seen stack broken s calls = some out) :
    seen ⊆ out.seen ∧ ∃ δ, out.calls = calls ++ δ ∧ (δ.map Prod.fst).Nodup ∧
      ∀ c ∈ δ, c.1 ∉ seen ∧ c.1 ∈ out.seen := by
  obtain ⟨h1, δ, h2, h3, h4, _⟩ :=
    collectLoop_invariant impl fuel seen stack broken s calls out h
  exact ⟨h1, δ, h2, h3, h4⟩

/-- Witness for C7: checked on the shared-child graph, where the pass breaks
node `1` once. -/
theorem collect_seen_grows_break_once_witness :
    ({0} : Finset Nat) ⊆
      (⟨1, insert 1 {0}, fun j => if j = 1 then none else liveState g6 j,
        [(1, true)]⟩ : LoopOut (GState 2)).seen
  ∧ ∃ δ, (⟨1, insert 1 {0}, fun j => if j = 1 then none else liveState g6 j,
        [(1, true)]⟩ : LoopOut (GState 2)).calls = [] ++ δ ∧ (δ.map Prod.fst).Nodup ∧
      ∀ c ∈ δ, c.1 ∉ ({0} : Finset Nat) ∧
        c.1 ∈ (⟨1, insert 1 {0}, fun j => if j = 1 then none else liveState g6 j,
          [(1, true)]⟩ : LoopOut (GState 2)).seen :=
  collect_seen_grows_break_once (graphImpl 2 (fun _ => true)) 5 {0} [1, 1] 0
    (liveState g6) []
    ⟨1, insert 1 {0}, fun j => if j = 1 then none else liveState g6 j, [(1, true)]⟩ rfl

/-! ### Claim C8 -/

/-- Breaking one node of the graph model never touches another node's entry. -/
theorem graph_break_state_other (n : Nat) (brk : Fin n → Bool) (r0 : Fin n)
    (s : GState n) (r : Fin n) (hne : r ≠ r0) :
    ((graphImpl n brk).break_references r0 s).2.2 r = s r := by
  simp only [graphImpl]
  rcases hs0 : s r0 with _ | cs
  · rfl
  · by_cases hb : brk r0 <;> simp [hb, hne]

/-- In the graph model, entries of nodes whose identity is already seen are
never modified by the rest of the pass. -/
theorem collectLoop_state_of_seen (n : Nat) (brk : Fin n → Bool) :
    ∀ fuel (seen : Finset Nat) (stack : List (Fin n)) (broken : Nat) (s : GState n)
      (calls : List (Nat × Bool)) (out : LoopOut (GState n)),
      collectLoop (graphImpl n brk) fuel seen stack broken s calls = some out →
      ∀ r : Fin n, r.val ∈ seen → out.state r = s r := by
  intro fuel
  induction fuel with
  | zero =>
    intro seen stack broken s calls out h r hr
    cases stack with
    | nil =>
      rw [collectLoop_nil, Option.some_inj] at h
      subst h
      rfl
    | cons r0 rest => exact absurd h (by simp [collectLoop])
  | succ fuel ih =>
    intro seen stack broken s calls out h r hr
    cases stack with
    | nil =>
      rw [collectLoop_nil, Option.some_inj] at h
      subst h
      rfl
    | cons r0 rest =>
      have hid : (graphImpl n brk).get_id r0 s = some r0.val := rfl
      by_cases hi : r0.val ∈ seen
      · rw [collectLoop_cons_seen (graphImpl n brk) fuel rest broken calls hid hi] at h
        exact ih seen rest broken s calls out h r hr
      · have hrefs : (graphImpl n brk).get_references
            ((graphImpl n brk).break_references r0 s).2.1
            ((graphImpl n brk).break_references r0 s).2.2
            = some ((((graphImpl n brk).break_references r0 s).2.2
                (((graphImpl n brk).break_references r0 s).2.1)).getD []) := rfl
        rw [collectLoop_cons_new_present (graphImpl n brk) fuel rest broken calls
          hid hi hrefs] at h
        have hne : r ≠ r0 := fun e => hi (e ▸ hr)
        have := ih _ _ _ _ _ _ h r (Finset.mem_insert_of_mem hr)
        rw [this, graph_break_state_other n brk r0 s r hne]

/-- C8: `collect` never invokes `break_references` on anything carrying the
root's identity (the root itself included), the returned count totals only
the logged non-root break invocations that reported progress, and (in the
graph model) the root's own content is left unmodified by the pass. -/
theorem collect_root_never_broken :
    (∀ (σ Ref : Type) (impl : CRImpl σ Ref) (fuel : Nat) (root : Ref) (s : σ)
        (i k : Nat) (s2 : σ) (calls : List (Nat × Bool)),
        impl.get_id root s = some i →
        collect impl fuel root s = some (some k, s2, calls) →
        i ∉ calls.map Prod.fst ∧ k = (calls.filter (fun c => c.2)).length)
  ∧ ∀ (n : Nat) (brk : Fin n → Bool) (g : Fin n → List (Fin n)) (root : Fin n)
      (fuel : Nat) (res : Option Nat × GState n × List (Nat × Bool)),
      collect (graphImpl n brk) fuel root (liveState g) = some res →
      res.2.1 root = some (g root) := by
  constructor
  · intro σ Ref impl fuel root s i k s2 calls hid h
    rcases hrefs : impl.get_references root s with _ | refs
    · simp only [collect, hid, hrefs] at h
      rw [Option.some_inj] at h
      have h1 : (none : Option Nat) = some k :=
        congrArg (fun t : Option Nat × σ × List (Nat × Bool) => t.1) h
      exact Option.noConfusion h1
    · rcases hloop : collectLoop impl fuel {i} refs.reverse 0 s [] with _ | out
      · simp only [collect, hid, hrefs, hloop] at h
        exact Option.noConfusion h
      · simp only [collect, hid, hrefs, hloop] at h
        rw [Option.some_inj] at h
        obtain ⟨_, δ, hcalls, _, hmem, hcount⟩ :=
          collectLoop_invariant impl fuel {i} refs.reverse 0 s [] out hloop
        have hkb : some out.broken = some k := congrArg (fun t => t.1) h
        rw [Option.some_inj] at hkb
        have hcc : out.calls = calls := congrArg (fun t => t.2.2) h
        rw [List.nil_append] at hcalls
        subst hcalls
        constructor
        · intro hin
          rw [← hcc] at hin
          obtain ⟨c, hc, hc1⟩ := List.mem_map.mp hin
          exact (hmem c hc).1 (hc1 ▸ Finset.mem_singleton_self i)
        · rw [← hkb, ← hcc, hcount]
          simp
  · intro n brk g root fuel res h
    have hid : (graphImpl n brk).get_id root (liveState g) = some root.val := rfl
    rcases hrefs : (graphImpl n brk).get_references root (liveState g) with _ | refs
    · exact absurd hrefs (by simp [graphImpl])
    · rcases hloop : collectLoop (graphImpl n brk) fuel {root.val} refs.reverse 0
          (liveState g) [] with _ | out
      · simp only [collect, hid, hrefs, hloop] at h
        exact Option.noConfusion h
      · simp only [collect, hid, hrefs, hloop] at h
        rw [Option.some_inj] at h
        have hst : res.2.1 = out.state := by rw [← h]
        rw [hst, collectLoop_state_of_seen n brk fuel {root.val} refs.reverse 0
          (liveState g) [] out hloop root (Finset.mem_singleton_self root.val)]
        rfl

/-- Witness for C8: on the shared-child graph the root's identity `0` is
absent from the break log, the count equals the log's progress entries, and
the root's entry still holds its original children. -/
theorem collect_root_never_broken_witness :
    ((0 : Nat) ∉ ([(1, true)] : List (Nat × Bool)).map Prod.fst
      ∧ 1 = (([(1, true)] : List (Nat × Bool)).filter (fun c => c.2)).length)
  ∧ ((some 1, fun j => if j = 1 then none else liveState g6 j, [(1, true)]) :
      Option Nat × GState 2 × List (Nat × Bool)).2.1 0 = some (g6 0) := by
  constructor
  · exact collect_root_never_broken.1 (GState 2) (Fin 2) (graphImpl 2 (fun _ => true)) 5 0
      (liveState g6) 0 1 (fun j => if j = 1 then none else liveState g6 j) [(1, true)]
      rfl rfl
  · exact collect_root_never_broken.2 2 (fun _ => true) g6 0 5
      (some 1, fun j => if j = 1 then none else liveState g6 j, [(1, true)]) rfl

/-! ### Reachability characterization of the loop in the graph model

These lemmas pin down which identities a pass marks seen, and hence the final
break count, independently of the order in which children are enumerated. -/

theorem reach_nil {g : Fin n → List (Fin n)} {brk : Fin n → Bool} {seen : Finset Nat}
    {x : Fin n} : ¬ Reach g brk seen [] x := by
  intro h
  induction h with
  | base x hx => simp at hx
  | step y x hy hns hbf hx ih => exact ih

theorem reach_mono_stack {g : Fin n → List (Fin n)} {brk : Fin n → Bool}
    {seen : Finset Nat} {st1 st2 : List (Fin n)} (hsub : ∀ z, z ∈ st1 → z ∈ st2)
    {x : Fin n} (h : Reach g brk seen st1 x) : Reach g brk seen st2 x := by
  induction h with
  | base x hx => exact Reach.base x (hsub x hx)
  | step y x hy hns hbf hx ih => exact Reach.step y x ih hns hbf hx

theorem reach_skip {g : Fin n → List (Fin n)} {brk : Fin n → Bool} {seen : Finset Nat}
    {r : Fin n} {rest : List (Fin n)} {x : Fin n} (hr : r.val ∈ seen)
    (h : Reach g brk seen (r :: rest) x) : x = r ∨ Reach g brk seen rest x := by
  induction h with
  | base x hx =>
    rcases List.mem_cons.mp hx with hx | hx
    · exact Or.inl hx
    · exact Or.inr (Reach.base x hx)
  | step y x hy hns hbf hx ih =>
    rcases ih with rfl | hy2
    · exact absurd hr hns
    · exact Or.inr (Reach.step y x hy2 hns hbf hx)

theorem reach_expand {g : Fin n → List (Fin n)} {brk : Fin n → Bool} {seen : Finset Nat}
    {r : Fin n} {rest : List (Fin n)} {x : Fin n} (hr : r.val ∉ seen)
    (hbf : brk r = false) (h : Reach g brk seen (r :: rest) x) :
    x = r ∨ Reach g brk (insert r.val seen) ((g r).reverse ++ rest) x := by
  induction h with
  | base x hx =>
    rcases List.mem_cons.mp hx with hx | hx
    · exact Or.inl hx
    · exact Or.inr (Reach.base x (List.mem_append.mpr (Or.inr hx)))
  | step y x hy hns hbf2 hx ih =>
    by_cases hyr : y = r
    · subst hyr
      exact Or.inr (Reach.base x (List.mem_append.mpr (Or.inl (List.mem_reverse.mpr hx))))
    · rcases ih with rfl | hy2
      · exact absurd rfl hyr
      · refine Or.inr (Reach.step y x hy2 ?_ hbf2 hx)
        intro hmem
        rcases Finset.mem_insert.mp hmem with he | he
        · exact hyr (Fin.val_injective he)
        · exact hns he

theorem reach_broken {g : Fin n → List (Fin n)} {brk : Fin n → Bool} {seen : Finset Nat}
    {r : Fin n} {rest : List (Fin n)} {x : Fin n} (hr : r.val ∉ seen)
    (hbt : brk r = true) (h : Reach g brk seen (r :: rest) x) :
    x = r ∨ Reach g brk (insert r.val seen) rest x := by
  induction h with
  | base x hx =>
    rcases List.mem_cons.mp hx with hx | hx
    · exact Or.inl hx
    · exact Or.inr (Reach.base x hx)
  | step y x hy hns hbf2 hx ih =>
    by_cases hyr : y = r
    · subst hyr
      exact absurd hbf2 (by simp [hbt])
    · rcases ih with rfl | hy2
      · exact absurd rfl hyr
      · refine Or.inr (Reach.step y x hy2 ?_ hbf2 hx)
        intro hmem
        rcases Finset.mem_insert.mp hmem with he | he
        · exact hyr (Fin.val_injective he)
        · exact hns he

theorem reach_broken_rev {g : Fin n → List (Fin n)} {brk : Fin n → Bool}
    {seen : Finset Nat} {r : Fin n} {rest : List (Fin n)} {x : Fin n}
    (h : Reach g brk (insert r.val seen) rest x) : Reach g brk seen (r :: rest) x := by
  induction h with
  | base x hx => exact Reach.base x (List.mem_cons_of_mem r hx)
  | step y x hy hns hbf hx ih =>
    exact Reach.step y x ih (fun hs => hns (Finset.mem_insert_of_mem hs)) hbf hx

theorem reach_expand_rev {g : Fin n → List (Fin n)} {brk : Fin n → Bool}
    {seen : Finset Nat} {r : Fin n} {rest : List (Fin n)} {x : Fin n}
    (hr : r.val ∉ seen) (hbf : brk r = false)
    (h : Reach g brk (insert r.val seen) ((g r).reverse ++ rest) x) :
    Reach g brk seen (r :: rest) x := by
  induction h with
  | base x hx =>
    rcases List.mem_append.mp hx with hx | hx
    · exact Reach.step r x (Reach.base r (List.mem_cons_self r rest)) hr hbf
        (List.mem_reverse.mp hx)
    · exact Reach.base x (List.mem_cons_of_mem r hx)
  | step y x hy hns hbf2 hx ih =>
    exact Reach.step y x ih (fun hs => hns (Finset.mem_insert_of_mem hs)) hbf2 hx

theorem reach_congr {g1 g2 : Fin n → List (Fin n)} {brk : Fin n → Bool}
    {seen : Finset Nat} {st1 st2 : List (Fin n)}
    (hg : ∀ y z : Fin n, z ∈ g1 y ↔ z ∈ g2 y) (hst : ∀ z : Fin n, z ∈ st1 ↔ z ∈ st2)
    {x : Fin n} (h : Reach g1 brk seen st1 x) : Reach g2 brk seen st2 x := by
  induction h with
  | base x hx => exact Reach.base x ((hst x).mp hx)
  | step y x hy hns hbf hx ih => exact Reach.step y x ih hns hbf ((hg y x).mp hx)

/-- Soundness: every identity the loop marks seen was seen already or belongs
to a reachable node. -/
theorem collectLoop_seen_bound (n : Nat) (brk : Fin n → Bool) (g : Fin n → List (Fin n)) :
    ∀ fuel (seen : Finset Nat) (stack : List (Fin n)) (broken : Nat) (s : GState n)
      (calls : List (Nat × Bool)) (out : LoopOut (GState n)),
      stateOk g seen s →
      collectLoop (graphImpl n brk) fuel seen stack broken s calls = some out →
      ∀ i, i ∈ out.seen → i ∈ seen ∨ ∃ x, Reach g brk seen stack x ∧ x.val = i := by
  intro fuel
  induction fuel with
  | zero =>
    intro seen stack broken s calls out hok h i hi
    cases stack with
    | nil =>
      rw [collectLoop_nil, Option.some_inj] at h
      subst h
      exact Or.inl hi
    | cons r rest => exact absurd h (by simp [collectLoop])
  | succ fuel ih =>
    intro seen stack broken s calls out hok h i hi
    cases stack with
    | nil =>
      rw [collectLoop_nil, Option.some_inj] at h
      subst h
      exact Or.inl hi
    | cons r rest =>
      have hid : (graphImpl n brk).get_id r s = some r.val := rfl
      by_cases hr : r.val ∈ seen
      · rw [collectLoop_cons_seen (graphImpl n brk) fuel rest broken calls hid hr] at h
        rcases ih seen rest broken s calls out hok h i hi with hi2 | ⟨x, hx, hxv⟩
        · exact Or.inl hi2
        · exact Or.inr ⟨x, reach_mono_stack (fun z hz => List.mem_cons_of_mem r hz) hx, hxv⟩
      · have hsr : s r = some (g r) := by
          rcases hok r with h1 | h1
          · exact h1
          · exact absurd h1 hr
        by_cases hb : brk r
        · have hbk : (graphImpl n brk).break_references r s
              = (true, r, fun j => if j = r then none else s j) := by
            simp [graphImpl, hsr, hb]
          have hrefs : (graphImpl n brk).get_references
              ((graphImpl n brk).break_references r s).2.1
              ((graphImpl n brk).break_references r s).2.2 = some [] := by
            rw [hbk]
            simp [graphImpl]
          rw [collectLoop_cons_new_present (graphImpl n brk) fuel rest broken calls
            hid hr hrefs, hbk] at h
          simp only [List.reverse_nil, List.nil_append] at h
          have hok2 : stateOk g (insert r.val seen) (fun j => if j = r then none else s j) := by
            intro j
            by_cases hjr : j = r
            · subst hjr
              exact Or.inr (Finset.mem_insert_self j.val seen)
            · simp only [hjr, if_false]
              rcases hok j with h1 | h1
              · exact Or.inl h1
              · exact Or.inr (Finset.mem_insert_of_mem h1)
          rcases ih _ _ _ _ _ _ hok2 h i hi with hi2 | ⟨x, hx, hxv⟩
          · rcases Finset.mem_insert.mp hi2 with he | he
            · exact Or.inr ⟨r, Reach.base r (List.mem_cons_self r rest), he.symm⟩
            · exact Or.inl he
          · exact Or.inr ⟨x, reach_broken_rev hx, hxv⟩
        · have hbf : brk r = false := Bool.eq_false_iff.mpr hb
          have hbk : (graphImpl n brk).break_references r s = (false, r, s) := by
            simp [graphImpl, hsr, hbf]
          have hrefs : (graphImpl n brk).get_references
              ((graphImpl n brk).break_references r s).2.1
              ((graphImpl n brk).break_references r s).2.2 = some (g r) := by
            rw [hbk]
            simp [graphImpl, hsr]
          rw [collectLoop_cons_new_present (graphImpl n brk) fuel rest broken calls
            hid hr hrefs, hbk] at h
          have hok2 : stateOk g (insert r.val seen) s := by
            intro j
            rcases hok j with h1 | h1
            · exact Or.inl h1
            · exact Or.inr (Finset.mem_insert_of_mem h1)
          rcases ih _ _ _ _ _ _ hok2 h i hi with hi2 | ⟨x, hx, hxv⟩
          · rcases Finset.mem_insert.mp hi2 with he | he
            · exact Or.inr ⟨r, Reach.base r (List.mem_cons_self r rest), he.symm⟩
            · exact Or.inl he
          · exact Or.inr ⟨x, reach_expand_rev hr hbf hx, hxv⟩

/-- Completeness: every reachable node's identity ends up seen. -/
theorem collectLoop_reach_seen (n : Nat) (brk : Fin n → Bool) (g : Fin n → List (Fin n)) :
    ∀ fuel (seen : Finset Nat) (stack : List (Fin n)) (broken : Nat) (s : GState n)
      (calls : List (Nat × Bool)) (out : LoopOut (GState n)),
      stateOk g seen s →
      collectLoop (graphImpl n brk) fuel seen stack broken s calls = some out →
      ∀ x, Reach g brk seen stack x → x.val ∈ out.seen := by
  intro fuel
  induction fuel with
  | zero =>
    intro seen stack broken s calls out hok h x hx
    cases stack with
    | nil => exact absurd hx reach_nil
    | cons r rest => exact absurd h (by simp [collectLoop])
  | succ fuel ih =>
    intro seen stack broken s calls out hok h x hx
    cases stack with
    | nil => exact absurd hx reach_nil
    | cons r rest =>
      have hid : (graphImpl n brk).get_id r s = some r.val := rfl
      by_cases hr : r.val ∈ seen
      · rw [collectLoop_cons_seen (graphImpl n brk) fuel rest broken calls hid hr] at h
        have hmono := (collectLoop_invariant (graphImpl n brk) fuel seen rest broken
          s calls out h).1
        rcases reach_skip hr hx with rfl | hx2
        · exact hmono hr
        · exact ih seen rest broken s calls out hok h x hx2
      · have hsr : s r = some (g r) := by
          rcases hok r with h1 | h1
          · exact h1
          · exact absurd h1 hr
        by_cases hb : brk r
        · have hbk : (graphImpl n brk).break_references r s
              = (true, r, fun j => if j = r then none else s j) := by
            simp [graphImpl, hsr, hb]
          have hrefs : (graphImpl n brk).get_references
              ((graphImpl n brk).break_references r s).2.1
              ((graphImpl n brk).break_references r s).2.2 = some [] := by
            rw [hbk]
            simp [graphImpl]
          rw [collectLoop_cons_new_present (graphImpl n brk) fuel rest broken calls
            hid hr hrefs, hbk] at h
          simp only [List.reverse_nil, List.nil_append] at h
          have hmono := (collectLoop_invariant (graphImpl n brk) fuel _ rest _ _ _ out h).1
          have hok2 : stateOk g (insert r.val seen) (fun j => if j = r then none else s j) := by
            intro j
            by_cases hjr : j = r
            · subst hjr
              exact Or.inr (Finset.mem_insert_self j.val seen)
            · simp only [hjr, if_false]
              rcases hok j with h1 | h1
              · exact Or.inl h1
              · exact Or.inr (Finset.mem_insert_of_mem h1)
          rcases reach_broken hr hb hx with rfl | hx2
          · exact hmono (Finset.mem_insert_self x.val seen)
          · exact ih _ _ _ _ _ _ hok2 h x hx2
        · have hbf : brk r = false := Bool.eq_false_iff.mpr hb
          have hbk : (graphImpl n brk).break_references r s = (false, r, s) := by
            simp [graphImpl, hsr, hbf]
          have hrefs : (graphImpl n brk).get_references
              ((graphImpl n brk).break_references r s).2.1
              ((graphImpl n brk).break_references r s).2.2 = some (g r) := by
            rw [hbk]
            simp [graphImpl, hsr]
          rw [collectLoop_cons_new_present (graphImpl n brk) fuel rest broken calls
            hid hr hrefs, hbk] at h
          have hmono := (collectLoop_invariant (graphImpl n brk) fuel _ _ _ _ _ out h).1
          have hok2 : stateOk g (insert r.val seen) s := by
            intro j
            rcases hok j with h1 | h1
            · exact Or.inl h1
            · exact Or.inr (Finset.mem_insert_of_mem h1)
          rcases reach_expand hr hbf hx with rfl | hx2
          · exact hmono (Finset.mem_insert_self x.val seen)
          · exact ih _ _ _ _ _ _ hok2 h x hx2

/-- The count computed by the loop is the number of newly seen identities
whose node breaks with progress. -/
theorem collectLoop_broken_count (n : Nat) (brk : Fin n → Bool) (g : Fin n → List (Fin n)) :
    ∀ fuel (seen : Finset Nat) (stack : List (Fin n)) (broken : Nat) (s : GState n)
      (calls : List (Nat × Bool)) (out : LoopOut (GState n)),
      stateOk g seen s →
      collectLoop (graphImpl n brk) fuel seen stack broken s calls = some out →
      out.broken = broken + ((out.seen \ seen).filter (fun i => brkId n brk i)).card := by
  intro fuel
  induction fuel with
  | zero =>
    intro seen stack broken s calls out hok h
    cases stack with
    | nil =>
      rw [collectLoop_nil, Option.some_inj] at h
      subst h
      simp
    | cons r rest => exact absurd h (by simp [collectLoop])
  | succ fuel ih =>
    intro seen stack broken s calls out hok h
    cases stack with
    | nil =>
      rw [collectLoop_nil, Option.some_inj] at h
      subst h
      simp
    | cons r rest =>
      have hid : (graphImpl n brk).get_id r s = some r.val := rfl
      by_cases hr : r.val ∈ seen
      · rw [collectLoop_cons_seen (graphImpl n brk) fuel rest broken calls hid hr] at h
        exact ih seen rest broken s calls out hok h
      · have hsr : s r = some (g r) := by
          rcases hok r with h1 | h1
          · exact h1
          · exact absurd h1 hr
        have hsd : ∀ hrin : r.val ∈ out.seen,
            out.seen \ seen = insert r.val (out.seen \ insert r.val seen) := by
          intro hrin
          ext j
          simp only [Finset.mem_sdiff, Finset.mem_insert]
          constructor
          · rintro ⟨hj1, hj2⟩
            by_cases hjr : j = r.val
            · exact Or.inl hjr
            · exact Or.inr ⟨hj1, fun hc => hc.elim hjr hj2⟩
          · rintro (rfl | ⟨hj1, hj2⟩)
            · exact ⟨hrin, hr⟩
            · exact ⟨hj1, fun hs => hj2 (Or.inr hs)⟩
        have hnotm : r.val ∉ (out.seen \ insert r.val seen).filter (fun i => brkId n brk i) :=
          fun hmem =>
            (Finset.mem_sdiff.mp (Finset.mem_filter.mp hmem).1).2
              (Finset.mem_insert_self r.val seen)
        by_cases hb : brk r
        · have hbk : (graphImpl n brk).break_references r s
              = (true, r, fun j => if j = r then none else s j) := by
            simp [graphImpl, hsr, hb]
          have hrefs : (graphImpl n brk).get_references
              ((graphImpl n brk).break_references r s).2.1
              ((graphImpl n brk).break_references r s).2.2 = some [] := by
            rw [hbk]
            simp [graphImpl]
          rw [collectLoop_cons_new_present (graphImpl n brk) fuel rest broken calls
            hid hr hrefs, hbk] at h
          simp only [List.reverse_nil, List.nil_append] at h
          have hok2 : stateOk g (insert r.val seen) (fun j => if j = r then none else s j) := by
            intro j
            by_cases hjr : j = r
            · subst hjr
              exact Or.inr (Finset.mem_insert_self j.val seen)
            · simp only [hjr, if_false]
              rcases hok j with h1 | h1
              · exact Or.inl h1
              · exact Or.inr (Finset.mem_insert_of_mem h1)
          have ihr := ih _ _ _ _ _ _ hok2 h
          simp only [if_true] at ihr
          have hrin : r.val ∈ out.seen :=
            (collectLoop_invariant (graphImpl n brk) fuel _ rest _ _ _ out h).1
              (Finset.mem_insert_self r.val seen)
          have hpb : brkId n brk r.val = true := by
            simp only [brkId, r.isLt, dif_pos, Fin.eta]
            exact hb
          rw [hsd hrin, Finset.filter_insert, if_pos hpb,
            Finset.card_insert_of_not_mem hnotm]
          omega
        · have hbf : brk r = false := Bool.eq_false_iff.mpr hb
          have hbk : (graphImpl n brk).break_references r s = (false, r, s) := by
            simp [graphImpl, hsr, hbf]
          have hrefs : (graphImpl n brk).get_references
              ((graphImpl n brk).break_references r s).2.1
              ((graphImpl n brk).break_references r s).2.2 = some (g r) := by
            rw [hbk]
            simp [graphImpl, hsr]
          rw [collectLoop_cons_new_present (graphImpl n brk) fuel rest broken calls
            hid hr hrefs, hbk] at h
          have hok2 : stateOk g (insert r.val seen) s := by
            intro j
            rcases hok j with h1 | h1
            · exact Or.inl h1
            · exact Or.inr (Finset.mem_insert_of_mem h1)
          have ihr := ih _ _ _ _ _ _ hok2 h
          simp only [if_false] at ihr
          have hrin : r.val ∈ out.seen :=
            (collectLoop_invariant (graphImpl n brk) fuel _ _ _ _ _ out h).1
              (Finset.mem_insert_self r.val seen)
          have hpb : brkId n brk r.val = false := by
            simp only [brkId, r.isLt, dif_pos, Fin.eta]
            exact hbf
          rw [hsd hrin, Finset.filter_insert, if_neg (by simp [hpb])]
          exact ihr

/-! ### Claim C9 -/

/-- C9: in the graph model — where all references sharing one identity behave
identically — permuting the enumeration order of every node's children leaves
the break count returned by `collect` unchanged. -/
theorem collect_count_order_independent (n : Nat) (g1 g2 : Fin n → List (Fin n))
    (brk : Fin n → Bool) (root : Fin n) (fuel1 fuel2 : Nat) (r1 r2 : Option Nat)
    (hperm : ∀ i, List.Perm (g1 i) (g2 i))
    (h1 : (collect (graphImpl n brk) fuel1 root (liveState g1)).map (fun t => t.1)
      = some r1)
    (h2 : (collect (graphImpl n brk) fuel2 root (liveState g2)).map (fun t => t.1)
      = some r2) :
    r1 = r2 := by
  obtain ⟨res1, hres1, hr1⟩ := Option.map_eq_some'.mp h1
  obtain ⟨res2, hres2, hr2⟩ := Option.map_eq_some'.mp h2
  have hid1 : (graphImpl n brk).get_id root (liveState g1) = some root.val := rfl
  have hid2 : (graphImpl n brk).get_id root (liveState g2) = some root.val := rfl
  have hrf1 : (graphImpl n brk).get_references root (liveState g1) = some (g1 root) := rfl
  have hrf2 : (graphImpl n brk).get_references root (liveState g2) = some (g2 root) := rfl
  have hok1 : stateOk g1 {root.val} (liveState g1) := fun r => Or.inl rfl
  have hok2 : stateOk g2 {root.val} (liveState g2) := fun r => Or.inl rfl
  rcases hloop1 : collectLoop (graphImpl n brk) fuel1 {root.val} (g1 root).reverse 0
      (liveState g1) [] with _ | out1
  · rw [show collect (graphImpl n brk) fuel1 root (liveState g1) = none by
      simp only [collect, hid1, hrf1, hloop1]] at hres1
    exact Option.noConfusion hres1
  · rcases hloop2 : collectLoop (graphImpl n brk) fuel2 {root.val} (g2 root).reverse 0
        (liveState g2) [] with _ | out2
    · rw [show collect (graphImpl n brk) fuel2 root (liveState g2) = none by
        simp only [collect, hid2, hrf2, hloop2]] at hres2
      exact Option.noConfusion hres2
    · rw [show collect (graphImpl n brk) fuel1 root (liveState g1)
          = some (some out1.broken, out1.state, out1.calls) by
        simp only [collect, hid1, hrf1, hloop1], Option.some_inj] at hres1
      rw [show collect (graphImpl n brk) fuel2 root (liveState g2)
          = some (some out2.broken, out2.state, out2.calls) by
        simp only [collect, hid2, hrf2, hloop2], Option.some_inj] at hres2
      have hg : ∀ y z : Fin n, z ∈ g1 y ↔ z ∈ g2 y := fun y z => (hperm y).mem_iff
      have hst : ∀ z : Fin n, z ∈ (g1 root).reverse ↔ z ∈ (g2 root).reverse := by
        intro z
        rw [List.mem_reverse, List.mem_reverse]
        exact (hperm root).mem_iff
      have hseen : out1.seen = out2.seen := by
        ext i
        constructor
        · intro hi
          rcases collectLoop_seen_bound n brk g1 fuel1 {root.val} (g1 root).reverse 0
              (liveState g1) [] out1 hok1 hloop1 i hi with hi2 | ⟨x, hx, hxv⟩
          · exact (collectLoop_invariant (graphImpl n brk) fuel2 {root.val}
              (g2 root).reverse 0 (liveState g2) [] out2 hloop2).1 hi2
          · exact hxv ▸ collectLoop_reach_seen n brk g2 fuel2 {root.val}
              (g2 root).reverse 0 (liveState g2) [] out2 hok2 hloop2 x
              (reach_congr hg hst hx)
        · intro hi
          rcases collectLoop_seen_bound n brk g2 fuel2 {root.val} (g2 root).reverse 0
              (liveState g2) [] out2 hok2 hloop2 i hi with hi2 | ⟨x, hx, hxv⟩
          · exact (collectLoop_invariant (graphImpl n brk) fuel1 {root.val}
              (g1 root).reverse 0 (liveState g1) [] out1 hloop1).1 hi2
          · exact hxv ▸ collectLoop_reach_seen n brk g1 fuel1 {root.val}
              (g1 root).reverse 0 (liveState g1) [] out1 hok1 hloop1 x
              (reach_congr (fun y z => (hg y z).symm) (fun z => (hst z).symm) hx)
      have hc1 := collectLoop_broken_count n brk g1 fuel1 {root.val} (g1 root).reverse 0
        (liveState g1) [] out1 hok1 hloop1
      have hc2 := collectLoop_broken_count n brk g2 fuel2 {root.val} (g2 root).reverse 0
        (liveState g2) [] out2 hok2 hloop2
      have hbroken : out1.broken = out2.broken := by
        rw [hc1, hc2, hseen]
      rw [← hr1, ← hr2, ← hres1, ← hres2]
      simp [hbroken]

/-- Witness for C9: the two orderings of the root's children in `g9a` and
`g9b` give the same break count. -/
theorem collect_count_order_independent_witness :
    (∀ i : Fin 3, List.Perm (g9a i) (g9b i))
  ∧ ((collect (graphImpl 3 (fun _ => true)) 10 0 (liveState g9a)).map (fun t => t.1)
      = some (some 2))
  ∧ ((collect (graphImpl 3 (fun _ => true)) 10 0 (liveState g9b)).map (fun t => t.1)
      = some (some 2))
  ∧ (some 2 : Option Nat) = some 2 :=
  ⟨by decide, by decide, by decide,
    collect_count_order_independent 3 g9a g9b (fun _ => true) 0 10 10 (some 2) (some 2)
      (by decide) (by decide) (by decide)⟩

/-! ### Claims C5 and C6 -/

/-- C5: evaluation of the linear chain `root → A → B` (graph `g5`, every break
severing successfully).  The claim expects `2`; the code returns `1`: node A's
children are queried only after `break_references` emptied them, so B is never
visited or broken — the break log shows exactly one break, of identity `1`
(A).  Re-running on the resulting state does return `0`, as the claim states,
since A answers with no progress and empty children once broken. -/
theorem collect_chain_eval :
    ((collect (graphImpl 3 (fun _ => true)) 10 0 (liveState g5)).map (fun t => t.1)
      = some (some 1))
  ∧ (((collect (graphImpl 3 (fun _ => true)) 10 0 (liveState g5)).bind
        (fun t => collect (graphImpl 3 (fun _ => true)) 10 0 t.2.1)).map (fun t => t.1)
      = some (some 0))
  ∧ ((collect (graphImpl 3 (fun _ => true)) 10 0 (liveState g5)).map (fun t => t.2.2)
      = some [(1, true)]) :=
  ⟨by decide, by decide, by decide⟩

/-- C6: on a root whose two children are both the same node `C` (graph `g6`),
`collect` breaks `C` exactly once — the log holds the single entry for
identity `1` — and returns `1`. -/
theorem collect_shared_child_once :
    ((collect (graphImpl 2 (fun _ => true)) 10 0 (liveState g6)).map (fun t => t.1)
      = some (some 1))
  ∧ ((collect (graphImpl 2 (fun _ => true)) 10 0 (liveState g6)).map (fun t => t.2.2)
      = some [(1, true)]) :=
  ⟨by decide, by decide⟩

/-! ### Claim C10 -/

/-- C10: the shared-ownership cell adapter's `get_id` always returns a present
identity — even when the cell is exclusively borrowed, in which case
`get_references` is absent and `break_references` reports no progress, yet the
identity is still present — and clones of one allocation (equal addresses)
report the same identity. -/
theorem rc_get_id_always_present (innerRefs : Nat → RefList RcHandle)
    (innerBreak : Nat → Bool) (flags : Nat → BorrowFlag) (rc rc2 : RcHandle) :
    rcGetId rc = some rc.addr
  ∧ (flags rc.addr = BorrowFlag.writing →
      rcGetReferences innerRefs flags rc = none
      ∧ rcBreakReferences innerBreak flags rc = false
      ∧ (rcGetId rc).isSome = true)
  ∧ (rc.addr = rc2.addr → rcGetId rc = rcGetId rc2) := by
  refine ⟨rfl, ?_, ?_⟩
  · intro hw
    refine ⟨?_, ?_, rfl⟩
    · simp [rcGetReferences, tryBorrow, hw]
    · simp [rcBreakReferences, tryBorrowMut, hw]
  · intro he
    simp [rcGetId, he]

/-- Witness for C10: a handle at address `0` under an exclusive borrow. -/
theorem rc_get_id_always_present_witness :
    rcGetId ⟨0⟩ = some (RcHandle.mk 0).addr
  ∧ (rcGetReferences (fun _ => some []) (fun _ => BorrowFlag.writing) ⟨0⟩ = none
      ∧ rcBreakReferences (fun _ => true) (fun _ => BorrowFlag.writing) ⟨0⟩ = false
      ∧ (rcGetId ⟨0⟩).isSome = true)
  ∧ rcGetId ⟨0⟩ = rcGetId ⟨0⟩ := by
  obtain ⟨w1, w2, w3⟩ := rc_get_id_always_present (fun _ => some []) (fun _ => true)
    (fun _ => BorrowFlag.writing) ⟨0⟩ ⟨0⟩
  exact ⟨w1, w2 rfl, w3 rfl⟩

end CC
